import Mathlib

/-!
Verification of the CZDS (centralized zone) pipeline of `tld-root-zone-db`.

The definitions below are a shallow embedding of the TypeScript sources
`src/centralized-zone.ts` and `src/jobs/centralized-zone.mts`:

* text is modelled as `List Char` (one JS string = one list of characters,
  restricted to the ASCII fragment that zone files use; JS
  `String.prototype.toLowerCase` is modelled by `Char.toLower`, which is the
  same "A-Z ↦ a-z, everything else fixed" map on this fragment);
* JS `Set` plus `Array.from(set).sort()` is modelled by first-occurrence
  deduplication followed by sorting with the code-unit lexicographic order;
* effectful code (HTTP responses, the filesystem, gunzip) is modelled by
  passing the outcome of each external call as an explicit argument, so every
  definition is a pure, executable function.
-/

namespace TldZoneDb

/-! ## Domain extraction (`processZoneFile` in `centralized-zone.ts`) -/

/-- The whitespace characters recognised by JS `trim()` / `\s` on the ASCII
fragment: space, tab, newline, carriage return, vertical tab, form feed. -/
def jsWhitespace (c : Char) : Bool :=
  c = ' ' || c = '\t' || c = '\n' || c = '\r' || c = '\x0b' || c = '\x0c'

/-- JS `line.trim()`: drop whitespace from both ends. -/
def trimL (s : List Char) : List Char :=
  ((s.dropWhile jsWhitespace).reverse.dropWhile jsWhitespace).reverse

/-- JS `fileContent.split("\n")`; always returns at least one (possibly
empty) line. -/
def splitLines : List Char → List (List Char)
  | [] => [[]]
  | c :: rest =>
    let r := splitLines rest
    if c = '\n' then [] :: r
    else (c :: r.headD []) :: r.tail

/-- JS `domainsArray.join("\n")`. -/
def joinNL : List (List Char) → List Char
  | [] => []
  | d :: rest =>
    match rest with
    | [] => d
    | _ :: _ => d ++ '\n' :: joinNL rest

/-- JS `line.trim().split(/\s+/)[0]`: the first whitespace-delimited field of
the trimmed line (empty when the line is all whitespace). -/
def firstField (s : List Char) : List Char :=
  (trimL s).takeWhile (fun c => !jsWhitespace c)

/-- JS `toLowerCase()` on the ASCII fragment, applied character-wise. -/
def lowerL (s : List Char) : List Char :=
  s.map Char.toLower

/-- JS `domain.endsWith(".") ? domain.slice(0, -1) : domain`. -/
def stripDot (d : List Char) : List Char :=
  if d.getLast? = some '.' then d.dropLast else d

/-- One loop iteration of `processZoneFile`: the domain the line contributes
to the set, if any.  Mirrors the source exactly: the `;` / `$` skip tests run
on the *untrimmed* line, the field is lowercased, one trailing dot is
stripped, and the result is kept only if non-empty and not starting with
`;`. -/
def lineDomain (line : List Char) : Option (List Char) :=
  if trimL line = [] || line.head? = some ';' || line.head? = some '$' then
    none
  else
    let domain := lowerL (firstField line)
    let cleanDomain := stripDot domain
    if cleanDomain ≠ [] && cleanDomain.head? ≠ some ';' then
      some cleanDomain
    else
      none

/-- The domains contributed by each retained line, in file order (with
duplicates, before the `Set` deduplicates them). -/
def rawDomains (text : List Char) : List (List Char) :=
  (splitLines text).filterMap lineDomain

/-- First-occurrence deduplication: the membership order of a JS `Set`
populated by `domainNames.add`. `seen` accumulates the values already kept. -/
def dedupAux {α : Type} [DecidableEq α] (seen : List α) : List α → List α
  | [] => []
  | x :: xs =>
    if x ∈ seen then dedupAux seen xs
    else x :: dedupAux (x :: seen) xs

/-- JS `Set` contents as a list (insertion order, no duplicates). -/
def jsSetDedup {α : Type} [DecidableEq α] (l : List α) : List α :=
  dedupAux [] l

/-- The default JS `Array.prototype.sort` comparator on strings: lexicographic
comparison of code-unit values. -/
def lexLe : List Char → List Char → Bool
  | [], _ => true
  | _ :: _, [] => false
  | a :: as, b :: bs =>
    if a.toNat < b.toNat then true
    else if b.toNat < a.toNat then false
    else lexLe as bs

/-- Insert into a `lexLe`-sorted list, keeping it sorted. -/
def insertD (x : List Char) : List (List Char) → List (List Char)
  | [] => [x]
  | y :: ys => if lexLe x y then x :: y :: ys else y :: insertD x ys

/-- Sorting with the JS default string comparator.  (Insertion sort; any
comparison sort yields the same result on a duplicate-free list, since
`lexLe` is total and antisymmetric.) -/
def sortLex (l : List (List Char)) : List (List Char) :=
  l.foldr insertD []

/-- JS `Array.from(domainNames).sort()`: the deduplicated, lexicographically
sorted domain list produced by `processZoneFile`. -/
def extract (text : List Char) : List (List Char) :=
  sortLex (jsSetDedup (rawDomains text))

/-- The file content written back by `processZoneFile`:
`domainsArray.join("\n")`. -/
def extractText (text : List Char) : List Char :=
  joinNL (extract text)

/-! ## Gzip validation and decompression (`extractGzFile`) -/

/-- The error cases of `extractGzFile`, one per `reject` site. -/
inductive ExtractGzError
  | readFailed (msg : String)
  | invalidFormat (gzPath : String)
  | decompressFailed (gzPath : String) (msg : String)
  | writeFailed (msg : String)
deriving DecidableEq

/-- Models `extractGzFile(gzPath, outputPath)`.  The external calls are passed in as
explicit outcomes: `readResult` is what `fs.readFile` produced, `gunzip` is
the `zlib.gunzip` callback viewed as a function from input bytes, and
`writeErr` is the failure (if any) of the final `fs.writeFile`.  On success
the value is the decompressed byte sequence that was written.  (The trailing
`fs.unlinkSync(gzPath)` of the source only logs on failure and changes no
observable value, so it is not modelled.) -/
def extractGzFile (gzPath : String) (readResult : Except String (List Nat))
    (gunzip : List Nat → Except String (List Nat))
    (writeErr : Option String) : Except ExtractGzError (List Nat) :=
  match readResult with
  | .error m => .error (.readFailed m)
  | .ok data =>
    if data.length < 2 ∨ data.get? 0 ≠ some 0x1f ∨ data.get? 1 ≠ some 0x8b then
      .error (.invalidFormat gzPath)
    else
      match gunzip data with
      | .error m => .error (.decompressFailed gzPath m)
      | .ok decompressedData =>
        match writeErr with
        | some m => .error (.writeFailed m)
        | none => .ok decompressedData

/-! ## Batch processing (`processInBatches`, `processZoneFilesToLocal` in
`jobs/centralized-zone.mts`) -/

/-- Models `processInBatches(items, processor, batchSize, delayBetweenBatches)`.
The processor is pure here; `Promise.all` settles a batch into results in
input order, which this models directly.  `delayMs` (the inter-batch sleep)
affects no returned value but is kept in the signature.  A `batchSize` of `0`
would make the JS `for` loop spin forever; the claims below only concern
positive batch sizes, and this model returns `[]` for that degenerate case. -/
def processInBatches {α β : Type} (processor : α → β) (batchSize delayMs : Nat)
    (items : List α) : List β :=
  match items with
  | [] => []
  | x :: xs =>
    match batchSize with
    | 0 => []
    | b + 1 =>
      ((x :: xs).take (b + 1)).map processor
        ++ processInBatches processor (b + 1) delayMs ((x :: xs).drop (b + 1))
termination_by items.length
decreasing_by
  simp only [List.drop_succ_cons, List.length_cons, List.length_drop]
  omega

/-- One per-TLD result record of `processZoneFilesToLocal`. -/
structure BatchOutcome where
  success : Bool
  tld : String
  errMsg : Option String
deriving DecidableEq

/-- JS `path.basename(url)`: the final path segment. -/
def basenameL (url : List Char) : List Char :=
  (url.reverse.takeWhile (fun c => c ≠ '/')).reverse

/-- Computes `path.basename(url).split(".")[0]`: the TLD identifier of a download
URL. -/
def tldOf (url : String) : String :=
  ((basenameL url.toList).takeWhile (fun c => c ≠ '.')).asString

/-- The per-URL closure inside `processZoneFilesToLocal`: run the
download-and-extract pipeline, catch any failure, and record it in the
outcome instead of rethrowing.  `runPipeline` stands for the effectful
`downloadFile` + `extractAndProcessFile` sequence for one URL. -/
def processOneLocal (runPipeline : String → Except String Unit)
    (url : String) : BatchOutcome :=
  match runPipeline url with
  | .ok _ => { success := true, tld := tldOf url, errMsg := none }
  | .error e => { success := false, tld := tldOf url, errMsg := some e }

/-- Models `processZoneFilesToLocal(downloadLinks)`: batch the URLs with the
configured concurrency limit and a 1000 ms inter-batch delay. -/
def processZoneFilesToLocal (runPipeline : String → Except String Unit)
    (urls : List String) (concurrencyLimit : Nat) : List BatchOutcome :=
  processInBatches (processOneLocal runPipeline) concurrencyLimit 1000 urls

/-! ## Authentication retry (`getValidTokenWithRetry`) -/

/-- JS `hay.includes(needle)`. -/
def includesL (hay needle : List Char) : Bool :=
  hay.tails.any (fun t => needle.isPrefixOf t)

/-- Models `error.message.includes("429") || error.message.includes("Too Many
Requests")`: the rate-limit classification of the catch block. -/
def isRateLimitMsg (msg : String) : Bool :=
  includesL msg.toList "429".toList || includesL msg.toList "Too Many Requests".toList

/-- Outcome of one `getValidToken()` call (cache hit or fresh
authentication): a token, or a thrown error with its message. -/
inductive AuthOutcome
  | ok (token : String)
  | err (msg : String)

/-- Result of `getValidTokenWithRetry`. -/
inductive AuthResult
  | token (t : String)
  | failed (msg : String)
  | retriesExceeded (maxRetries : Nat)
deriving DecidableEq

/-- What one run of the retry loop did: its result, the backoff delays it
slept (in ms, in order), and how many `getValidToken()` calls it made. -/
structure RetryTrace where
  result : AuthResult
  delays : List Nat
  attemptsMade : Nat
deriving DecidableEq

/-- Computes `Math.min(1000 * 2 ** retryCount, 30000)`, evaluated after
`retryCount++`, so the argument is the 1-based index of the retry. -/
def retryDelayMs (retryCount : Nat) : Nat :=
  min (1000 * 2 ^ retryCount) 30000

/-- The `while (retryCount < maxRetries)` loop of `getValidTokenWithRetry`.
`attempt k` is the outcome of the `getValidToken()` call made when
`retryCount = k`.  The loop increments `retryCount` once per iteration, so
`maxRetries - retryCount` decreases by exactly one each time round; `fuel`
carries that difference as a structural recursion counter (it starts at
`maxRetries`, and `fuel = 0` coincides with the loop guard
`retryCount < maxRetries` failing). -/
def runAuthRetryGo (attempt : Nat → AuthOutcome) (maxRetries : Nat) :
    (fuel retryCount : Nat) → List Nat → Nat → RetryTrace
  | 0, _, delays, made => ⟨.retriesExceeded maxRetries, delays, made⟩
  | fuel + 1, retryCount, delays, made =>
    if retryCount < maxRetries then
      match attempt retryCount with
      | .ok t => ⟨.token t, delays, made + 1⟩
      | .err m =>
        if isRateLimitMsg m then
          runAuthRetryGo attempt maxRetries fuel (retryCount + 1)
            (delays ++ [retryDelayMs (retryCount + 1)]) (made + 1)
        else
          ⟨.failed m, delays, made + 1⟩
    else
      ⟨.retriesExceeded maxRetries, delays, made⟩

/-- Models `getValidTokenWithRetry(maxRetries)` (the source default is
`maxRetries = 3`). -/
def getValidTokenWithRetry (attempt : Nat → AuthOutcome)
    (maxRetries : Nat) : RetryTrace :=
  runAuthRetryGo attempt maxRetries maxRetries 0 [] 0

/-! ## Token cache freshness (`isTokenExpired`, `getCachedToken`) -/

/-- The persisted credential record (`token-cache.json`). -/
structure TokenCache where
  accessToken : String
  expiresAt : Int
deriving DecidableEq

/-- Models `isTokenExpired(token, bufferSeconds = 300)`.  `decodedExp` is the `exp`
claim (seconds since epoch) that `jwtDecode` extracted, or `none` when
decoding threw (the catch branch treats that as expired).  `nowSeconds` is
`Math.floor(Date.now() / 1000)`. -/
def isTokenExpired (decodedExp : Option Int) (nowSeconds bufferSeconds : Int) : Bool :=
  match decodedExp with
  | some exp => decide (exp - bufferSeconds ≤ nowSeconds)
  | none => true

/-- Models `getCachedToken()`.  `cacheFileContents` is the parsed cache file;
`none` covers both a missing file and any read/parse error (the source
catches those and proceeds as if no token were cached).  `decodeExp` is
`jwtDecode` restricted to the `exp` claim. -/
def getCachedToken (cacheFileContents : Option TokenCache)
    (decodeExp : String → Option Int) (nowSeconds : Int) : Option TokenCache :=
  match cacheFileContents with
  | none => none
  | some cachedData =>
    if !isTokenExpired (decodeExp cachedData.accessToken) nowSeconds 300 then
      some cachedData
    else
      none

/-! ## Zone file download (`downloadFile` in `centralized-zone.ts`) -/

/-- The failures `downloadFile` can raise, one per `throw` / `reject`
site. -/
inductive DownloadError
  | httpError (url : String) (status : Nat) (statusText : String)
  | nullBody (url : String)
  | streamError (msg : String)
deriving DecidableEq

/-- The externally determined circumstances of one `downloadFile` call:
the HTTP response, whether a body was present, whether the write stream
errored, whether a partial destination file exists when cleanup runs, and
whether `fs.unlinkSync` succeeds. -/
structure DownloadCase where
  responseOk : Bool
  status : Nat
  statusText : String
  bodyPresent : Bool
  streamFailure : Option String
  fileExistsAtCleanup : Bool
  unlinkSucceeds : Bool
deriving DecidableEq

/-- The `if (fs.existsSync(outputPath)) fs.unlinkSync(outputPath)` block
wrapped in `try/catch` with the catch empty: returns whether the file still
exists afterwards; an `unlinkSync` failure is swallowed and leaves the file
in place. -/
def cleanupIfExists (fileExists unlinkSucceeds : Bool) : Bool :=
  if fileExists then (if unlinkSucceeds then false else true) else false

/-- Models `downloadFile(url, outputPath)`: result plus whether the destination
file exists afterwards.  Each failure branch performs the best-effort
cleanup and propagates the original error; the outer `catch` repeats the
same cleanup before rethrowing, which is a no-op after the inner one
(`cleanupIfExists` is idempotent for a fixed `unlinkSucceeds`), so a single
application models both. -/
def downloadFile (url : String) (dc : DownloadCase) :
    Except DownloadError Unit × Bool :=
  if !dc.responseOk then
    (.error (.httpError url dc.status dc.statusText),
      cleanupIfExists dc.fileExistsAtCleanup dc.unlinkSucceeds)
  else if !dc.bodyPresent then
    (.error (.nullBody url),
      cleanupIfExists dc.fileExistsAtCleanup dc.unlinkSucceeds)
  else
    match dc.streamFailure with
    | some m =>
      (.error (.streamError m), cleanupIfExists true dc.unlinkSucceeds)
    | none => (.ok (), true)

/-! ## Download-links payload validation (`fetchDownloadLinks`) -/

/-- JSON values, as `response.json()` can produce them. -/
inductive Json
  | str (s : String)
  | num (n : Int)
  | boolean (b : Bool)
  | null
  | arr (elements : List Json)
  | obj (fields : List (String × Json))

/-- JS `Array.isArray(data)`. -/
def isArr : Json → Bool
  | .arr _ => true
  | _ => false

/-- Whether a JSON value is a string (the element type the spec claims is
enforced). -/
def isStringJson : Json → Bool
  | .str _ => true
  | _ => false

/-- The validation `fetchDownloadLinks` applies to the parsed payload:
`if (!Array.isArray(data)) throw ...; return data;`.  Note the source only
checks that the payload is an array; the elements are returned unchecked
(the `as string[]` of the TypeScript is a cast, not a runtime check). -/
def fetchDownloadLinksValidate (payload : Json) : Except String (List Json) :=
  match payload with
  | .arr elements => .ok elements
  | _ => .error "Invalid API response: expected array but got different structure"


theorem toNat_ofNat_valid {n : Nat} (h : n.isValidChar) : (Char.ofNat n).toNat = n := by
  simp [Char.ofNat, h, Char.ofNatAux, Char.toNat, UInt32.toNat]

theorem toLower_idem (c : Char) : c.toLower.toLower = c.toLower := by
  unfold Char.toLower
  by_cases h : c.toNat ≥ 65 ∧ c.toNat ≤ 90
  · have hv : (c.toNat + 32).isValidChar := by
      left
      omega
    rw [if_pos h, toNat_ofNat_valid hv, if_neg (by omega)]
  · rw [if_neg h, if_neg h]

theorem char_eq_iff_toNat {c d : Char} : c = d ↔ c.toNat = d.toNat := by
  constructor
  · intro h
    rw [h]
  · intro h
    have := congrArg Char.ofNat h
    rwa [Char.ofNat_toNat, Char.ofNat_toNat] at this

theorem jsWhitespace_iff (c : Char) :
    jsWhitespace c = true ↔
      (c.toNat = 32 ∨ c.toNat = 9 ∨ c.toNat = 10 ∨ c.toNat = 13 ∨
        c.toNat = 11 ∨ c.toNat = 12) := by
  have h1 : (' ').toNat = 32 := rfl
  have h2 : ('\t').toNat = 9 := rfl
  have h3 : ('\n').toNat = 10 := rfl
  have h4 : ('\r').toNat = 13 := rfl
  have h5 : ('\x0b').toNat = 11 := rfl
  have h6 : ('\x0c').toNat = 12 := rfl
  unfold jsWhitespace
  simp only [Bool.or_eq_true, decide_eq_true_eq, char_eq_iff_toNat, h1, h2, h3, h4, h5, h6]
  tauto

theorem jsWhitespace_toLower (c : Char) (h : jsWhitespace c = false) :
    jsWhitespace c.toLower = false := by
  unfold Char.toLower
  by_cases hc : c.toNat ≥ 65 ∧ c.toNat ≤ 90
  · rw [if_pos hc]
    have hv : (c.toNat + 32).isValidChar := by
      left
      omega
    rw [Bool.eq_false_iff]
    intro hw
    rw [jsWhitespace_iff, toNat_ofNat_valid hv] at hw
    omega
  · rwa [if_neg hc]

theorem dropWhile_of_all_false {p : Char → Bool} {l : List Char}
    (h : ∀ c ∈ l, p c = false) : l.dropWhile p = l := by
  cases l with
  | nil => rfl
  | cons x xs =>
    rw [List.dropWhile_cons, if_neg]
    rw [h x (by simp)]
    simp

theorem takeWhile_of_all_true {p : Char → Bool} {l : List Char}
    (h : ∀ c ∈ l, p c = true) : l.takeWhile p = l := by
  induction l with
  | nil => rfl
  | cons x xs ih =>
    rw [List.takeWhile_cons, if_pos (h x (by simp))]
    rw [ih (fun c hc => h c (by simp [hc]))]

theorem trimL_of_no_ws {l : List Char} (h : ∀ c ∈ l, jsWhitespace c = false) :
    trimL l = l := by
  unfold trimL
  rw [dropWhile_of_all_false h, dropWhile_of_all_false, List.reverse_reverse]
  intro c hc
  exact h c (List.mem_reverse.mp hc)

theorem mem_of_mem_stripDot {c : Char} {d : List Char} (h : c ∈ stripDot d) :
    c ∈ d := by
  unfold stripDot at h
  split at h
  · exact (List.dropLast_sublist _).subset h
  · exact h

theorem stripDot_head {x : Char} {rest : List Char} :
    stripDot (x :: rest) = [] ∨ (stripDot (x :: rest)).head? = some x := by
  unfold stripDot
  split
  · cases rest with
    | nil =>
      left
      rfl
    | cons y ys =>
      right
      rw [List.dropLast_cons_of_ne_nil (by simp)]
      rfl
  · right
    rfl

theorem lineDomain_props {line d : List Char} (h : lineDomain line = some d) :
    d ≠ [] ∧ d.head? ≠ some ';' ∧ (∀ c ∈ d, jsWhitespace c = false) ∧
      lowerL d = d := by
  unfold lineDomain at h
  split at h
  · exact absurd h (by simp)
  · simp only at h
    split at h
    · rename_i hcond
      simp only [Bool.and_eq_true, decide_eq_true_eq] at hcond
      have hd : stripDot (lowerL (firstField line)) = d := by
        injection h
      subst hd
      refine ⟨hcond.1, hcond.2, ?_, ?_⟩
      · intro c hc
        have hc2 : c ∈ lowerL (firstField line) := mem_of_mem_stripDot hc
        obtain ⟨c0, hc0, hcl⟩ := List.mem_map.mp hc2
        unfold firstField at hc0
        have hws := List.mem_takeWhile_imp hc0
        subst hcl
        exact jsWhitespace_toLower c0 (by simpa using hws)
      · have : ∀ c ∈ stripDot (lowerL (firstField line)), c.toLower = c := by
          intro c hc
          obtain ⟨c0, _, hcl⟩ := List.mem_map.mp (mem_of_mem_stripDot hc)
          subst hcl
          exact toLower_idem c0
        calc lowerL (stripDot (lowerL (firstField line)))
            = (stripDot (lowerL (firstField line))).map id :=
              List.map_congr_left this
          _ = _ := List.map_id _
    · exact absurd h (by simp)

/-- A non-empty, whitespace-free, already-lowercase string that does not
start with `;` or `$` and does not end with `.` passes through `lineDomain`
unchanged. -/
theorem lineDomain_self {d : List Char} (hne : d ≠ [])
    (hws : ∀ c ∈ d, jsWhitespace c = false) (hsemi : d.head? ≠ some ';')
    (hdollar : d.head? ≠ some '$') (hlow : lowerL d = d)
    (hdot : d.getLast? ≠ some '.') : lineDomain d = some d := by
  have htrim : trimL d = d := trimL_of_no_ws hws
  have hff : firstField d = d := by
    unfold firstField
    rw [htrim]
    exact takeWhile_of_all_true (fun c hc => by simp [hws c hc])
  unfold lineDomain
  rw [if_neg]
  · simp only
    rw [hff, hlow]
    have hsd : stripDot d = d := by
      unfold stripDot
      rw [if_neg hdot]
    rw [hsd, if_pos]
    simp only [Bool.and_eq_true, decide_eq_true_eq]
    exact ⟨hne, hsemi⟩
  · simp only [Bool.or_eq_true, decide_eq_true_eq]
    push_neg
    rw [htrim]
    exact ⟨⟨hne, hsemi⟩, hdollar⟩

theorem splitLines_of_no_newline {s : List Char} (h : '\n' ∉ s) :
    splitLines s = [s] := by
  induction s with
  | nil => rfl
  | cons c rest ih =>
    have hc : c ≠ '\n' := fun hc => h (hc ▸ List.mem_cons_self c rest)
    have ih' := ih (fun hm => h (List.mem_cons_of_mem c hm))
    simp [splitLines, hc, ih']

theorem splitLines_append_newline {a b : List Char} (h : '\n' ∉ a) :
    splitLines (a ++ '\n' :: b) = a :: splitLines b := by
  induction a with
  | nil => simp [splitLines]
  | cons c a' ih =>
    have hc : c ≠ '\n' := fun hc => h (hc ▸ List.mem_cons_self c a')
    have ih' := ih (fun hm => h (List.mem_cons_of_mem c hm))
    simp [splitLines, hc, ih']

theorem splitLines_joinNL {l : List (List Char)} (hne : l ≠ [])
    (h : ∀ d ∈ l, '\n' ∉ d) : splitLines (joinNL l) = l := by
  induction l with
  | nil => exact absurd rfl hne
  | cons d rest ih =>
    cases rest with
    | nil =>
      rw [show joinNL [d] = d from rfl]
      exact splitLines_of_no_newline (h d (by simp))
    | cons d' rest' =>
      rw [show joinNL (d :: d' :: rest') = d ++ '\n' :: joinNL (d' :: rest') from rfl]
      rw [splitLines_append_newline (h d (by simp))]
      rw [ih (by simp) (fun x hx => h x (List.mem_cons_of_mem d hx))]

theorem filterMap_self {f : List Char → Option (List Char)} {l : List (List Char)}
    (h : ∀ d ∈ l, f d = some d) : l.filterMap f = l := by
  induction l with
  | nil => rfl
  | cons x xs ih =>
    rw [List.filterMap_cons, h x (by simp)]
    rw [ih (fun d hd => h d (by simp [hd]))]

theorem mem_dedupAux {α : Type} [DecidableEq α] {a : α} :
    ∀ {seen l : List α}, a ∈ dedupAux seen l ↔ a ∈ l ∧ a ∉ seen := by
  intro seen l
  induction l generalizing seen with
  | nil => simp [dedupAux]
  | cons x xs ih =>
    unfold dedupAux
    split
    · rename_i hx
      rw [ih]
      constructor
      · rintro ⟨hm, hs⟩
        exact ⟨List.mem_cons_of_mem x hm, hs⟩
      · rintro ⟨hm, hs⟩
        rcases List.mem_cons.mp hm with h1 | h1
        · exact absurd (h1 ▸ hx) hs
        · exact ⟨h1, hs⟩
    · rename_i hx
      simp only [List.mem_cons, ih, List.mem_cons]
      constructor
      · rintro (h1 | ⟨hm, hs⟩)
        · subst h1
          exact ⟨Or.inl rfl, hx⟩
        · exact ⟨Or.inr hm, fun hseen => hs (Or.inr hseen)⟩
      · rintro ⟨h1 | hm, hs⟩
        · exact Or.inl h1
        · by_cases hax : a = x
          · exact Or.inl hax
          · exact Or.inr ⟨hm, fun hseen => (by
              rcases hseen with h2 | h2
              · exact hax h2
              · exact hs h2)⟩

theorem nodup_dedupAux {α : Type} [DecidableEq α] :
    ∀ {seen l : List α}, (dedupAux seen l).Nodup := by
  intro seen l
  induction l generalizing seen with
  | nil => simp [dedupAux]
  | cons x xs ih =>
    unfold dedupAux
    split
    · exact ih
    · refine List.nodup_cons.mpr ⟨?_, ih⟩
      intro hmem
      exact (mem_dedupAux.mp hmem).2 (List.mem_cons_self x _)

theorem dedupAux_eq_self {α : Type} [DecidableEq α] :
    ∀ {l seen : List α}, l.Nodup → (∀ a ∈ l, a ∉ seen) → dedupAux seen l = l := by
  intro l
  induction l with
  | nil => intro seen _ _; rfl
  | cons x xs ih =>
    intro seen hnd hdisj
    unfold dedupAux
    rw [if_neg (hdisj x (List.mem_cons_self x xs))]
    rw [ih (List.nodup_cons.mp hnd).2]
    intro a ha
    intro hmem
    rcases List.mem_cons.mp hmem with h | h
    · exact (List.nodup_cons.mp hnd).1 (h ▸ ha)
    · exact hdisj a (List.mem_cons_of_mem x ha) h

theorem jsSetDedup_eq_self {α : Type} [DecidableEq α] {l : List α}
    (h : l.Nodup) : jsSetDedup l = l :=
  dedupAux_eq_self h (by simp)

theorem mem_jsSetDedup {α : Type} [DecidableEq α] {a : α} {l : List α} :
    a ∈ jsSetDedup l ↔ a ∈ l := by
  unfold jsSetDedup
  rw [mem_dedupAux]
  simp

theorem nodup_jsSetDedup {α : Type} [DecidableEq α] {l : List α} :
    (jsSetDedup l).Nodup := nodup_dedupAux

theorem lexLe_total : ∀ a b : List Char, lexLe a b = true ∨ lexLe b a = true := by
  intro a
  induction a with
  | nil => intro b; left; rfl
  | cons x as ih =>
    intro b
    cases b with
    | nil => right; rfl
    | cons y bs =>
      unfold lexLe
      by_cases hxy : x.toNat < y.toNat
      · left
        rw [if_pos hxy]
      · by_cases hyx : y.toNat < x.toNat
        · right
          rw [if_pos hyx]
        · rw [if_neg hxy, if_neg hyx, if_neg hyx, if_neg hxy]
          exact ih bs

theorem lexLe_trans : ∀ a b c : List Char,
    lexLe a b = true → lexLe b c = true → lexLe a c = true := by
  intro a
  induction a with
  | nil => intro b c _ _; rfl
  | cons x as ih =>
    intro b c hab hbc
    cases b with
    | nil => exact absurd hab (by simp [lexLe])
    | cons y bs =>
      cases c with
      | nil => exact absurd hbc (by simp [lexLe])
      | cons z cs =>
        unfold lexLe at hab hbc ⊢
        by_cases hxy : x.toNat < y.toNat
        · by_cases hyz : y.toNat < z.toNat
          · rw [if_pos (by omega)]
          · rw [if_neg hyz] at hbc
            by_cases hzy : z.toNat < y.toNat
            · rw [if_pos hzy] at hbc
              exact absurd hbc (by simp)
            · rw [if_pos (by omega)]
        · rw [if_neg hxy] at hab
          by_cases hyx : y.toNat < x.toNat
          · rw [if_pos hyx] at hab
            exact absurd hab (by simp)
          · rw [if_neg hyx] at hab
            by_cases hyz : y.toNat < z.toNat
            · rw [if_pos (by omega)]
            · rw [if_neg hyz] at hbc
              by_cases hzy : z.toNat < y.toNat
              · rw [if_pos hzy] at hbc
                exact absurd hbc (by simp)
              · rw [if_neg hzy] at hbc
                rw [if_neg (by omega), if_neg (by omega)]
                exact ih bs cs hab hbc

theorem insertD_perm (x : List Char) (l : List (List Char)) :
    (insertD x l).Perm (x :: l) := by
  induction l with
  | nil => exact List.Perm.refl _
  | cons y ys ih =>
    unfold insertD
    split
    · exact List.Perm.refl _
    · exact (List.Perm.cons y ih).trans (List.Perm.swap x y ys)

theorem sortLex_perm (l : List (List Char)) : (sortLex l).Perm l := by
  induction l with
  | nil => exact List.Perm.refl _
  | cons x xs ih =>
    unfold sortLex at ih ⊢
    rw [List.foldr_cons]
    exact (insertD_perm x _).trans (List.Perm.cons x ih)

theorem mem_insertD {a x : List Char} {l : List (List Char)} :
    a ∈ insertD x l ↔ a = x ∨ a ∈ l := by
  rw [(insertD_perm x l).mem_iff]
  simp

theorem insertD_pairwise {x : List Char} {l : List (List Char)}
    (h : l.Pairwise (fun a b => lexLe a b = true)) :
    (insertD x l).Pairwise (fun a b => lexLe a b = true) := by
  induction l with
  | nil => simp [insertD]
  | cons y ys ih =>
    unfold insertD
    split
    · rename_i hxy
      refine List.pairwise_cons.mpr ⟨?_, h⟩
      intro b hb
      rcases List.mem_cons.mp hb with h1 | h1
      · exact h1 ▸ hxy
      · exact lexLe_trans x y b hxy ((List.pairwise_cons.mp h).1 b h1)
    · rename_i hxy
      have hyx : lexLe y x = true := by
        rcases lexLe_total x y with h1 | h1
        · exact absurd h1 hxy
        · exact h1
      refine List.pairwise_cons.mpr ⟨?_, ih (List.pairwise_cons.mp h).2⟩
      intro b hb
      rcases mem_insertD.mp hb with h1 | h1
      · exact h1 ▸ hyx
      · exact (List.pairwise_cons.mp h).1 b h1

theorem sortLex_pairwise (l : List (List Char)) :
    (sortLex l).Pairwise (fun a b => lexLe a b = true) := by
  induction l with
  | nil => simp [sortLex]
  | cons x xs ih =>
    unfold sortLex at ih ⊢
    rw [List.foldr_cons]
    exact insertD_pairwise ih

theorem insertD_of_le {x y : List Char} {ys : List (List Char)}
    (h : lexLe x y = true) : insertD x (y :: ys) = x :: y :: ys := by
  unfold insertD
  rw [if_pos h]

theorem sortLex_of_pairwise {l : List (List Char)}
    (h : l.Pairwise (fun a b => lexLe a b = true)) : sortLex l = l := by
  induction l with
  | nil => rfl
  | cons x xs ih =>
    unfold sortLex at ih ⊢
    rw [List.foldr_cons, ih (List.pairwise_cons.mp h).2]
    cases xs with
    | nil => rfl
    | cons y ys =>
      exact insertD_of_le ((List.pairwise_cons.mp h).1 y (List.mem_cons_self y ys))

theorem sortLex_nodup {l : List (List Char)} (h : l.Nodup) :
    (sortLex l).Nodup := ((sortLex_perm l).symm.nodup) h

theorem extract_mem_props {t d : List Char} (h : d ∈ extract t) :
    d ≠ [] ∧ d.head? ≠ some ';' ∧ (∀ c ∈ d, jsWhitespace c = false) ∧
      lowerL d = d := by
  unfold extract at h
  have h2 : d ∈ jsSetDedup (rawDomains t) := (sortLex_perm _).subset h
  have h3 : d ∈ rawDomains t := mem_jsSetDedup.mp h2
  unfold rawDomains at h3
  obtain ⟨line, _, hld⟩ := List.mem_filterMap.mp h3
  exact lineDomain_props hld

theorem extract_nodup (t : List Char) : (extract t).Nodup :=
  sortLex_nodup nodup_jsSetDedup

theorem extract_pairwise (t : List Char) :
    (extract t).Pairwise (fun a b => lexLe a b = true) := by
  unfold extract
  exact sortLex_pairwise _

/-- Core of the idempotence argument: when no extracted domain starts with
`$` or ends with `.`, re-extracting the joined output returns exactly the
same list. -/
theorem extract_extractText {t : List Char}
    (hdollar : ∀ d ∈ extract t, d.head? ≠ some '$')
    (hdot : ∀ d ∈ extract t, d.getLast? ≠ some '.') :
    extract (extractText t) = extract t := by
  by_cases hnil : extract t = []
  · rw [show extractText t = joinNL (extract t) from rfl, hnil]
    rw [show joinNL ([] : List (List Char)) = [] from rfl]
    rfl
  · have hnn : ∀ d ∈ extract t, '\n' ∉ d := by
      intro d hd hmem
      have hws := (extract_mem_props hd).2.2.1 '\n' hmem
      exact absurd hws (by decide)
    have h1 : splitLines (joinNL (extract t)) = extract t :=
      splitLines_joinNL hnil hnn
    have h2 : rawDomains (extractText t) = extract t := by
      unfold extractText rawDomains
      rw [h1]
      apply filterMap_self
      intro d hd
      obtain ⟨hne, hsemi, hws, hlow⟩ := extract_mem_props hd
      exact lineDomain_self hne hws hsemi (hdollar d hd) hlow (hdot d hd)
    have key : extract (extractText t) = sortLex (jsSetDedup (extract t)) :=
      congrArg (fun z => sortLex (jsSetDedup z)) h2
    rw [key, jsSetDedup_eq_self (extract_nodup t)]
    exact sortLex_of_pairwise (extract_pairwise t)

/-- A line whose trimmed form starts with `;` contributes nothing: either the
untrimmed line also starts with `;` (first skip test), or the first field
starts with `;` and fails the `cleanDomain` check. -/
theorem lineDomain_none_of_trim_semi {line : List Char}
    (h : (trimL line).head? = some ';') : lineDomain line = none := by
  unfold lineDomain
  split
  · rfl
  · simp only
    rw [if_neg]
    obtain ⟨rest, hrest⟩ : ∃ rest, trimL line = ';' :: rest := by
      cases htl : trimL line with
      | nil =>
        rw [htl] at h
        simp at h
      | cons a b =>
        rw [htl] at h
        simp only [List.head?_cons, Option.some.injEq] at h
        exact ⟨b, by rw [h]⟩
    have hff : firstField line
        = ';' :: (rest.takeWhile (fun c => !jsWhitespace c)) := by
      unfold firstField
      rw [hrest, List.takeWhile_cons, if_pos (by decide)]
    have hlow : lowerL (firstField line)
        = ';' :: lowerL (rest.takeWhile (fun c => !jsWhitespace c)) := by
      rw [hff]
      unfold lowerL
      rw [List.map_cons]
      rfl
    rw [hlow]
    simp only [Bool.and_eq_true, decide_eq_true_eq]
    push_neg
    intro hne
    rcases @stripDot_head ';'
        (lowerL (rest.takeWhile (fun c => !jsWhitespace c))) with hsd | hsd
    · exact absurd hsd hne
    · exact hsd

/-- The lines `processZoneFile` demonstrably skips: whitespace-only lines,
lines whose trimmed form starts with `;`, and lines starting with `$`
before trimming. -/
theorem lineDomain_skips {line : List Char}
    (h : trimL line = [] ∨ (trimL line).head? = some ';' ∨
      line.head? = some '$') : lineDomain line = none := by
  rcases h with h | h | h
  · unfold lineDomain
    rw [if_pos]
    simp [h]
  · exact lineDomain_none_of_trim_semi h
  · unfold lineDomain
    rw [if_pos]
    simp [h]

/-- C1 (amended): `extract` is idempotent on the newline-joined sorted output
provided no extracted domain starts with `$` or ends with `.`; re-extraction
then reproduces exactly the same domain list. -/
theorem claim_C1 (t : List Char)
    (h : ∀ d ∈ extract t, d.head? ≠ some '$' ∧ d.getLast? ≠ some '.') :
    extract (extractText t) = extract t :=
  extract_extractText (fun d hd => (h d hd).1) (fun d hd => (h d hd).2)

/-- C1 counterexample: on input `foo..`, the first extraction yields
`foo.` (only one trailing dot is stripped), and re-extracting that output
yields `foo`, a different set. -/
theorem claim_C1_counterexample :
    extract (extractText "foo..".toList) ≠ extract "foo..".toList := by
  decide

theorem claim_C1_witness :
    extract (extractText "; comment\n$ORIGIN .\nEXAMPLE. 3600 IN NS a.iana-servers.net.\nexample. 3600 IN NS a.iana-servers.net.".toList)
      = extract "; comment\n$ORIGIN .\nEXAMPLE. 3600 IN NS a.iana-servers.net.\nexample. 3600 IN NS a.iana-servers.net.".toList :=
  claim_C1 _ (by decide)

/-- C2 (amended): no domain is emitted for a line that is empty after
trimming, for a line whose trimmed form starts with `;`, or for a line that
starts with `$` before trimming.  (The source tests `startsWith("$")` on the
untrimmed line, so a line whose `$` is preceded by whitespace can emit a
domain — see the counterexample.) -/
theorem claim_C2 (line : List Char)
    (h : trimL line = [] ∨ (trimL line).head? = some ';' ∨
      line.head? = some '$') : lineDomain line = none :=
  lineDomain_skips h

/-- C2 counterexample: the line `" $origin"` starts with `$` after trimming,
yet `processZoneFile` emits the domain `$origin` for it, because the skip
test runs on the untrimmed line. -/
theorem claim_C2_counterexample :
    (trimL " $origin".toList).head? = some '$' ∧
      lineDomain " $origin".toList = some "$origin".toList := by
  decide

theorem claim_C2_witness :
    lineDomain "   ".toList = none ∧ lineDomain "  ; note".toList = none ∧
      lineDomain "$TTL 3600".toList = none :=
  ⟨claim_C2 _ (by decide), claim_C2 _ (by decide), claim_C2 _ (by decide)⟩

/-- C3: any input whose first two bytes are not `0x1F 0x8B` (including inputs
shorter than two bytes) is rejected with the invalid-format error —
uniformly in the decompressor, so no decompression outcome can influence
the result. -/
theorem claim_C3 (gzPath : String) (data : List Nat)
    (gunzip : List Nat → Except String (List Nat)) (writeErr : Option String)
    (h : data.take 2 ≠ [0x1f, 0x8b]) :
    extractGzFile gzPath (.ok data) gunzip writeErr
      = .error (.invalidFormat gzPath) := by
  unfold extractGzFile
  simp only
  rw [if_pos]
  match data with
  | [] =>
    left
    simp
  | [b] =>
    left
    simp
  | b0 :: b1 :: rest =>
    simp only [List.take, ne_eq, List.cons.injEq, and_true] at h
    push_neg at h
    by_cases h0 : b0 = 0x1f
    · right
      right
      subst h0
      simp only [List.get?]
      intro hc
      exact h rfl (by injection hc)
    · right
      left
      simp only [List.get?]
      intro hc
      exact h0 (by injection hc)

theorem claim_C3_witness :
    extractGzFile "com.zone.gz" (.ok [80, 75, 3, 4])
        (fun _ => .ok []) none
      = .error (.invalidFormat "com.zone.gz") :=
  claim_C3 "com.zone.gz" [80, 75, 3, 4] (fun _ => .ok []) none (by decide)

/-- For a positive batch size, batching is just a map in input order: the
slices are processed in sequence and concatenated. -/
theorem processInBatches_eq_map {α β : Type} (f : α → β) (b d : Nat)
    (hb : 0 < b) (items : List α) :
    processInBatches f b d items = items.map f := by
  suffices H : ∀ n (l : List α), l.length = n →
      processInBatches f b d l = l.map f from H items.length items rfl
  intro n
  induction n using Nat.strong_induction_on with
  | _ n ih =>
    intro l hn
    match l, b, hb with
    | [], _, _ => simp [processInBatches]
    | x :: xs, bp + 1, _ =>
      rw [processInBatches]
      have hlen : ((x :: xs).drop (bp + 1)).length < n := by
        subst hn
        simp only [List.drop_succ_cons, List.length_cons, List.length_drop]
        omega
      rw [ih ((x :: xs).drop (bp + 1)).length hlen _ rfl]
      rw [← List.map_append, List.take_append_drop]

/-- C10: for a positive batch size, `processInBatches` returns one result per
input item, and the result at position `i` is the processor applied to the
input at position `i`. -/
theorem claim_C10 {α β : Type} (f : α → β) (b d : Nat) (items : List α)
    (hb : 0 < b) :
    (processInBatches f b d items).length = items.length ∧
      ∀ (i : Nat) (x : α), items[i]? = some x →
        (processInBatches f b d items)[i]? = some (f x) := by
  rw [processInBatches_eq_map f b d hb]
  refine ⟨by simp, ?_⟩
  intro i x hx
  rw [List.getElem?_map, hx]
  rfl

theorem claim_C10_witness :
    (processInBatches (fun n : Nat => n * 2) 2 1000 [3, 5, 8]).length = 3 ∧
      (processInBatches (fun n : Nat => n * 2) 2 1000 [3, 5, 8])[2]?
        = some 16 := by
  have h := claim_C10 (fun n : Nat => n * 2) 2 1000 [3, 5, 8] (by decide)
  exact ⟨h.1, h.2 2 8 (by decide)⟩

/-- C4: with a positive concurrency limit, the local batch runner returns one
outcome per URL in input order; a URL whose pipeline fails gets a failure
outcome carrying its TLD and error, and every other URL (and every later
batch) is still processed. -/
theorem claim_C4 (runPipeline : String → Except String Unit)
    (urls : List String) (concurrencyLimit : Nat) (hb : 0 < concurrencyLimit) :
    (processZoneFilesToLocal runPipeline urls concurrencyLimit).length
        = urls.length ∧
      ∀ (i : Nat) (u : String), urls[i]? = some u →
        (processZoneFilesToLocal runPipeline urls concurrencyLimit)[i]?
            = some (processOneLocal runPipeline u) ∧
          ∀ (e : String), runPipeline u = .error e →
            (processZoneFilesToLocal runPipeline urls concurrencyLimit)[i]?
              = some (BatchOutcome.mk false (tldOf u) (some e)) := by
  unfold processZoneFilesToLocal
  rw [processInBatches_eq_map _ _ _ hb]
  refine ⟨by simp, ?_⟩
  intro i u hu
  rw [List.getElem?_map, hu]
  refine ⟨rfl, ?_⟩
  intro e he
  simp [processOneLocal, he]

theorem claim_C4_witness :
    (processZoneFilesToLocal
        (fun u => if u = "https://czds-api.icann.org/czds/downloads/org.zone.gz"
          then Except.error "boom" else Except.ok ())
        ["https://czds-api.icann.org/czds/downloads/com.zone.gz",
         "https://czds-api.icann.org/czds/downloads/org.zone.gz",
         "https://czds-api.icann.org/czds/downloads/net.zone.gz"] 2).length = 3 ∧
      (processZoneFilesToLocal
        (fun u => if u = "https://czds-api.icann.org/czds/downloads/org.zone.gz"
          then Except.error "boom" else Except.ok ())
        ["https://czds-api.icann.org/czds/downloads/com.zone.gz",
         "https://czds-api.icann.org/czds/downloads/org.zone.gz",
         "https://czds-api.icann.org/czds/downloads/net.zone.gz"] 2)[1]?
        = some (BatchOutcome.mk false
            (tldOf "https://czds-api.icann.org/czds/downloads/org.zone.gz")
            (some "boom")) := by
  have h := claim_C4
      (fun u => if u = "https://czds-api.icann.org/czds/downloads/org.zone.gz"
        then Except.error "boom" else Except.ok ())
      ["https://czds-api.icann.org/czds/downloads/com.zone.gz",
       "https://czds-api.icann.org/czds/downloads/org.zone.gz",
       "https://czds-api.icann.org/czds/downloads/net.zone.gz"] 2 (by decide)
  refine ⟨h.1, ?_⟩
  have h2 := (h.2 1 "https://czds-api.icann.org/czds/downloads/org.zone.gz"
      (by decide)).2 "boom" rfl
  exact h2

/-- When every attempt in range is rate-limited, the loop runs to exhaustion:
starting at `retryCount = j` with matching fuel, it records one backoff delay
per remaining attempt and ends in the retries-exceeded state. -/
theorem runGo_all_rl (attempt : Nat → AuthOutcome) (maxRetries : Nat)
    (hrl : ∀ k, k < maxRetries →
      ∃ m, attempt k = .err m ∧ isRateLimitMsg m = true) :
    ∀ n j delays made, maxRetries - j = n →
      runAuthRetryGo attempt maxRetries n j delays made =
        ⟨.retriesExceeded maxRetries,
          delays ++ (List.range n).map (fun i => retryDelayMs (j + i + 1)),
          made + n⟩ := by
  intro n
  induction n with
  | zero =>
    intro j delays made hn
    simp [runAuthRetryGo]
  | succ n ih =>
    intro j delays made hn
    have hjlt : j < maxRetries := by omega
    obtain ⟨m, hm, hrlm⟩ := hrl j hjlt
    unfold runAuthRetryGo
    rw [if_pos hjlt, hm]
    simp only
    rw [if_pos hrlm]
    rw [ih (j + 1) _ _ (by omega)]
    have hlist : (delays ++ [retryDelayMs (j + 1)])
          ++ (List.range n).map (fun i => retryDelayMs (j + 1 + i + 1))
        = delays ++ (List.range (n + 1)).map (fun i => retryDelayMs (j + i + 1)) := by
      rw [List.range_succ_eq_map, List.map_cons, List.map_map, List.append_assoc,
        List.singleton_append]
      congr 2
      apply List.map_congr_left
      intro i _
      simp only [Function.comp_apply]
      congr 1
      omega
    rw [RetryTrace.mk.injEq]
    exact ⟨rfl, hlist, by omega⟩

/-- When the attempts before `jf` are all rate-limited and attempt `jf`
fails with a non-rate-limit error, the loop rethrows that error right after
the `jf`-th call. -/
theorem runGo_stops (attempt : Nat → AuthOutcome) (maxRetries jf : Nat)
    (hjf : jf < maxRetries) (m : String) (hm : attempt jf = .err m)
    (hnrl : isRateLimitMsg m = false) :
    ∀ n j delays made, maxRetries - j = n → j ≤ jf →
      (∀ k, j ≤ k → k < jf →
        ∃ m2, attempt k = .err m2 ∧ isRateLimitMsg m2 = true) →
      (runAuthRetryGo attempt maxRetries n j delays made).result = .failed m ∧
        (runAuthRetryGo attempt maxRetries n j delays made).attemptsMade
          = made + (jf - j) + 1 := by
  intro n
  induction n with
  | zero =>
    intro j delays made hn hj _
    omega
  | succ n ih =>
    intro j delays made hn hj hprev
    have hjlt : j < maxRetries := by omega
    unfold runAuthRetryGo
    rw [if_pos hjlt]
    by_cases hjeq : j = jf
    · subst hjeq
      rw [hm]
      simp only
      rw [if_neg (by rw [hnrl]; simp)]
      refine ⟨rfl, ?_⟩
      show made + 1 = made + (j - j) + 1
      omega
    · have hjlt2 : j < jf := by omega
      obtain ⟨m2, hm2, hrl2⟩ := hprev j (le_refl j) hjlt2
      rw [hm2]
      simp only
      rw [if_pos hrl2]
      have hrec := ih (j + 1) (delays ++ [retryDelayMs (j + 1)]) (made + 1)
        (by omega) (by omega) (fun k hk1 hk2 => hprev k (by omega) hk2)
      exact ⟨hrec.1, by rw [hrec.2]; omega⟩

/-- C5 (amended): under consecutive rate-limit failures the recorded delay
before the `i`-th retry is `min(1000 * 2^(i+1), 30000)` ms — so the first
delay is 2000 ms (not 1000 ms), each subsequent delay doubles while below
the 30000 ms cap, and no delay exceeds 30000 ms. -/
theorem claim_C5 (attempt : Nat → AuthOutcome) (maxRetries : Nat)
    (hrl : ∀ k, k < maxRetries →
      ∃ m, attempt k = .err m ∧ isRateLimitMsg m = true) :
    (getValidTokenWithRetry attempt maxRetries).delays.length = maxRetries ∧
    (∀ i, i < maxRetries →
      (getValidTokenWithRetry attempt maxRetries).delays[i]?
        = some (min (1000 * 2 ^ (i + 1)) 30000)) ∧
    (0 < maxRetries →
      (getValidTokenWithRetry attempt maxRetries).delays[0]? = some 2000) ∧
    (∀ (i x : Nat),
      (getValidTokenWithRetry attempt maxRetries).delays[i]? = some x →
      x ≤ 30000) ∧
    (∀ i, i + 1 < maxRetries → 1000 * 2 ^ (i + 2) ≤ 30000 →
      (getValidTokenWithRetry attempt maxRetries).delays[i + 1]?
        = ((getValidTokenWithRetry attempt maxRetries).delays[i]?).map
            (fun x => 2 * x)) := by
  have hrun := runGo_all_rl attempt maxRetries hrl maxRetries 0 [] 0 (by omega)
  have hdel : (getValidTokenWithRetry attempt maxRetries).delays
      = (List.range maxRetries).map (fun i => retryDelayMs (i + 1)) := by
    unfold getValidTokenWithRetry
    rw [hrun]
    simp
  have hget : ∀ i, i < maxRetries →
      (getValidTokenWithRetry attempt maxRetries).delays[i]?
        = some (retryDelayMs (i + 1)) := by
    intro i hi
    rw [hdel, List.getElem?_map, List.getElem?_range hi]
    rfl
  refine ⟨by rw [hdel]; simp, ?_, ?_, ?_, ?_⟩
  · intro i hi
    rw [hget i hi]
    rfl
  · intro h0
    rw [hget 0 h0]
    rfl
  · intro i x hx
    have hi : i < maxRetries := by
      by_contra hge
      rw [hdel, List.getElem?_map, List.getElem?_eq_none (by simp; omega)] at hx
      exact absurd hx (by simp)
    rw [hget i hi] at hx
    have : x = retryDelayMs (i + 1) := by
      injection hx.symm
    rw [this]
    unfold retryDelayMs
    omega
  · intro i hi hcap
    rw [hget (i + 1) hi, hget i (by omega)]
    show some (retryDelayMs (i + 1 + 1)) = some (2 * retryDelayMs (i + 1))
    congr 1
    unfold retryDelayMs
    have h2 : (2 : Nat) ^ (i + 1 + 1) = 2 ^ (i + 1) * 2 := by
      rw [pow_succ]
    rw [h2] at hcap ⊢
    omega

/-- C5 counterexample: with every attempt rate-limited, the delay before the
first retry is 2000 ms, not the 1 second the claim states (the source
increments `retryCount` before computing `1000 * 2 ** retryCount`). -/
theorem claim_C5_counterexample :
    (getValidTokenWithRetry (fun _ => .err "HTTP 429") 3).delays[0]?
        = some 2000 ∧ (2000 : Nat) ≠ 1000 := by
  decide

theorem claim_C5_witness :
    (getValidTokenWithRetry (fun _ => .err "HTTP 429") 3).delays.length = 3 ∧
      (getValidTokenWithRetry (fun _ => .err "HTTP 429") 3).delays[2]?
        = some 8000 := by
  have h := claim_C5 (fun _ => .err "HTTP 429") 3
    (fun k _ => ⟨"HTTP 429", rfl, by decide⟩)
  exact ⟨h.1, h.2.1 2 (by decide)⟩

/-- C6: when every `getValidToken` attempt fails with a rate-limit response,
`getValidTokenWithRetry` makes exactly `maxRetries` attempts (the source
default is 3) and then fails with the retries-exceeded error; and a failure
not classified as rate limiting propagates immediately after its attempt,
with no further attempts. -/
theorem claim_C6 (attempt : Nat → AuthOutcome) (maxRetries jf : Nat) :
    ((∀ k, k < maxRetries →
        ∃ m, attempt k = .err m ∧ isRateLimitMsg m = true) →
      (getValidTokenWithRetry attempt maxRetries).result
          = .retriesExceeded maxRetries ∧
        (getValidTokenWithRetry attempt maxRetries).attemptsMade
          = maxRetries) ∧
    (jf < maxRetries →
      (∀ k, k < jf → ∃ m, attempt k = .err m ∧ isRateLimitMsg m = true) →
      ∀ m, attempt jf = .err m → isRateLimitMsg m = false →
        (getValidTokenWithRetry attempt maxRetries).result = .failed m ∧
          (getValidTokenWithRetry attempt maxRetries).attemptsMade
            = jf + 1) := by
  constructor
  · intro hrl
    have hrun := runGo_all_rl attempt maxRetries hrl maxRetries 0 [] 0 (by omega)
    unfold getValidTokenWithRetry
    rw [hrun]
    refine ⟨rfl, ?_⟩
    show 0 + maxRetries = maxRetries
    omega
  · intro hjf hprev m hm hnrl
    have hrun := runGo_stops attempt maxRetries jf hjf m hm hnrl
      maxRetries 0 [] 0 (by omega) (by omega)
      (fun k _ hk2 => hprev k hk2)
    unfold getValidTokenWithRetry
    exact ⟨hrun.1, by rw [hrun.2]; omega⟩

theorem claim_C6_witness :
    ((getValidTokenWithRetry (fun _ => .err "429 slow down") 3).result
        = .retriesExceeded 3 ∧
      (getValidTokenWithRetry (fun _ => .err "429 slow down") 3).attemptsMade
        = 3) ∧
    ((getValidTokenWithRetry
          (fun k => if k = 0 then .err "429 slow down"
            else .err "bad credentials") 3).result
        = .failed "bad credentials" ∧
      (getValidTokenWithRetry
          (fun k => if k = 0 then .err "429 slow down"
            else .err "bad credentials") 3).attemptsMade = 2) := by
  constructor
  · exact (claim_C6 (fun _ => .err "429 slow down") 3 0).1
      (fun k _ => ⟨"429 slow down", rfl, by decide⟩)
  · refine (claim_C6
        (fun k => if k = 0 then .err "429 slow down"
          else .err "bad credentials") 3 1).2 (by decide) ?_
        "bad credentials" rfl (by decide)
    intro k hk
    have hk0 : k = 0 := by omega
    subst hk0
    exact ⟨"429 slow down", rfl, by decide⟩

/-- C7: `getCachedToken` returns a cached credential only when
`now + 300 < exp` for the decoded expiry claim `exp` (seconds, buffer 300);
a credential whose expiry is less than 300 seconds in the future is never
returned. -/
theorem claim_C7 (cached : TokenCache) (decodeExp : String → Option Int)
    (now : Int) :
    (∀ tc, getCachedToken (some cached) decodeExp now = some tc →
      tc = cached ∧
        ∃ e, decodeExp cached.accessToken = some e ∧ now + 300 < e) ∧
    (∀ e, decodeExp cached.accessToken = some e → e < now + 300 →
      getCachedToken (some cached) decodeExp now = none) := by
  constructor
  · intro tc htc
    have htc2 : (if (!isTokenExpired (decodeExp cached.accessToken) now 300)
          = true then some cached else none) = some tc := htc
    by_cases hfresh :
        (!isTokenExpired (decodeExp cached.accessToken) now 300) = true
    · rw [if_pos hfresh] at htc2
      refine ⟨(Option.some.inj htc2).symm, ?_⟩
      cases hde : decodeExp cached.accessToken with
      | none =>
        rw [hde] at hfresh
        simp [isTokenExpired] at hfresh
      | some e =>
        rw [hde] at hfresh
        have : isTokenExpired (some e) now 300 = false := by
          simpa using hfresh
        unfold isTokenExpired at this
        simp only [decide_eq_false_iff_not] at this
        exact ⟨e, rfl, by omega⟩
    · rw [if_neg hfresh] at htc2
      exact absurd htc2 (by simp)
  · intro e hde hstale
    show (if (!isTokenExpired (decodeExp cached.accessToken) now 300) = true
        then some cached else none) = none
    have hexp : isTokenExpired (decodeExp cached.accessToken) now 300 = true := by
      rw [hde]
      unfold isTokenExpired
      simp only [decide_eq_true_eq]
      omega
    rw [if_neg (by rw [hexp]; simp)]

theorem claim_C7_witness :
    getCachedToken (some (TokenCache.mk "tok" 0)) (fun _ => some 1000) 900
      = none :=
  (claim_C7 (TokenCache.mk "tok" 0) (fun _ => some 1000) 900).2 1000 rfl
    (by omega)

/-- C8: every `downloadFile` failure — non-success HTTP status, missing
response body, or write-stream error — re-raises the original error (the
same error whether or not the best-effort deletion succeeds, so cleanup
failures are swallowed and never escalated), and when deletion succeeds the
partially written destination file is gone. -/
theorem claim_C8 (url : String) (dc : DownloadCase) :
    (dc.responseOk = false →
      (downloadFile url dc).1
        = .error (.httpError url dc.status dc.statusText)) ∧
    (dc.responseOk = true → dc.bodyPresent = false →
      (downloadFile url dc).1 = .error (.nullBody url)) ∧
    (dc.responseOk = true → dc.bodyPresent = true →
      ∀ m, dc.streamFailure = some m →
        (downloadFile url dc).1 = .error (.streamError m)) ∧
    ((dc.responseOk = false ∨ dc.bodyPresent = false ∨
        dc.streamFailure ≠ none) → dc.unlinkSucceeds = true →
      (downloadFile url dc).2 = false) := by
  have hclean : ∀ e : Bool, cleanupIfExists e true = false := by
    intro e
    cases e <;> rfl
  refine ⟨?_, ?_, ?_, ?_⟩
  · intro hok
    unfold downloadFile
    rw [hok]
    rfl
  · intro hok hbody
    unfold downloadFile
    rw [hok, hbody]
    rfl
  · intro hok hbody m hm
    unfold downloadFile
    rw [hok, hbody, hm]
    rfl
  · intro hfail hunlink
    unfold downloadFile
    cases hok : dc.responseOk with
    | false =>
      rw [hunlink]
      exact hclean _
    | true =>
      cases hbody : dc.bodyPresent with
      | false =>
        simp only [Bool.not_true, Bool.false_eq_true, if_false]
        rw [hunlink]
        exact hclean _
      | true =>
        cases hsf : dc.streamFailure with
        | none =>
          rcases hfail with h | h | h
          · rw [hok] at h
            exact absurd h (by simp)
          · rw [hbody] at h
            exact absurd h (by simp)
          · exact absurd hsf h
        | some m =>
          simp only [Bool.not_true, Bool.false_eq_true, if_false]
          rw [hunlink]
          exact hclean _

theorem claim_C8_witness :
    (downloadFile "https://czds-api.icann.org/czds/downloads/com.zone.gz"
        (DownloadCase.mk false 503 "Service Unavailable" false none true true)).1
      = .error (.httpError
          "https://czds-api.icann.org/czds/downloads/com.zone.gz"
          503 "Service Unavailable") ∧
    (downloadFile "https://czds-api.icann.org/czds/downloads/com.zone.gz"
        (DownloadCase.mk false 503 "Service Unavailable" false none true true)).2
      = false := by
  have h := claim_C8 "https://czds-api.icann.org/czds/downloads/com.zone.gz"
    (DownloadCase.mk false 503 "Service Unavailable" false none true true)
  exact ⟨h.1 rfl, h.2.2.2 (Or.inl rfl) rfl⟩

/-- C9 (amended): the payload validation in `fetchDownloadLinks` rejects
exactly the non-array payloads with the expected-array error; an array
payload is returned as-is, with no per-element string check, so arrays
containing non-string elements are accepted. -/
theorem claim_C9 (payload : Json) :
    (isArr payload = false →
      fetchDownloadLinksValidate payload
        = .error "Invalid API response: expected array but got different structure") ∧
    (∀ elements, payload = .arr elements →
      fetchDownloadLinksValidate payload = .ok elements) := by
  constructor
  · intro hna
    cases payload with
    | arr elements => exact absurd hna (by simp [isArr])
    | str s => rfl
    | num n => rfl
    | boolean b => rfl
    | null => rfl
    | obj fields => rfl
  · intro elements he
    subst he
    rfl

/-- C9 counterexample: the payload `[42]` contains a non-string element but
is accepted — the source only checks `Array.isArray`, never the element
types, so the claim that such payloads are rejected is false. -/
theorem claim_C9_counterexample :
    fetchDownloadLinksValidate (Json.arr [Json.num 42])
        = .ok [Json.num 42] ∧
      isStringJson (Json.num 42) = false :=
  ⟨rfl, rfl⟩

theorem claim_C9_witness :
    fetchDownloadLinksValidate (Json.obj [("links", Json.arr [])])
      = .error "Invalid API response: expected array but got different structure" :=
  (claim_C9 (Json.obj [("links", Json.arr [])])).1 rfl

end TldZoneDb
